import Mathlib

/-!
# Verification of the OCR recognition-run pipeline

Shallow embedding of the core of the `cleondev/OCR` repository:

* `app/services/preprocess.py` — `ImagePreprocessor` (fixed five-stage chained
  transform pipeline with output filtering via `allowed_labels`);
* `app/services/ocr_service.py` — `OCRService.process` (ingestion, page loop,
  per-variant recognition, best-result selection, single-transaction commit)
  and `OCRService._select_best_result`;
* `app/database.py` — `session_scope` (commit on success, rollback and
  re-raise on any exception);
* `app/main.py` — `format_confidence` (presentation-only normalization);
* `app/services/file_processing.py` — the supported-extension sets.

Pixel-level image transforms (PIL calls) and the recognition engines
themselves are external collaborators; they are abstracted as parameters
(`PipelineOps`, `EngineE.run`).  Machine floats are modelled as `ℚ`.
-/

/-! ## Data model (`app/models.py`)

`OCRTextResult`: variant label, extracted text, nullable confidence
(stored in backend-native scale; `Float` is modelled as `ℚ`). -/

structure OCRTextResultE where
  variant_label : String
  text : String
  confidence : Option ℚ
deriving DecidableEq, Repr

/-- `OCRImage` row: `kind` is the string `"source"` or `"preprocessed"`,
`label` e.g. `"page_1"` or `"page_1_grayscale"`, `sequence` as assigned by
`OCRService.process`. -/
structure OCRImageE where
  kind : String
  label : String
  sequence : Nat
deriving DecidableEq, Repr

/-- `OCRRun` row together with its owned collections (`images`,
`text_results`) as committed by `process`. -/
structure OCRRunE where
  engine : String
  images : List OCRImageE
  text_results : List OCRTextResultE
  summary_text : Option String
  best_confidence : Option ℚ
deriving DecidableEq, Repr

/-! ## Best-result selection (`OCRService._select_best_result`)

The Python code is

```
if not run.text_results: return None
sorted_results = sorted(run.text_results,
    key=lambda r: (r.confidence if r.confidence is not None else 0.0, len(r.text)),
    reverse=True)
return sorted_results[0]
```

`sorted(..., key=k, reverse=True)` is Python's stable sort run with all key
comparisons reversed: the output is the unique permutation that is sorted by
descending key and keeps the original relative order of key-ties.
`List.insertionSort` with the relation `sortRel a b := pyKey b ≤ pyKey a` is
exactly such a stable descending sort, so it denotes the same function. -/

/-- The Python sort key `(confidence or 0.0, len(text))`, compared as Python
compares tuples: lexicographically. -/
def pyKey (r : OCRTextResultE) : Lex (ℚ × ℕ) :=
  toLex (r.confidence.getD 0, r.text.length)

/-- `sortRel a b` holds when `a` may precede `b` in the descending sort. -/
def sortRel (a b : OCRTextResultE) : Prop :=
  pyKey b ≤ pyKey a

instance sortRel.decidableRel : DecidableRel sortRel :=
  fun a b => inferInstanceAs (Decidable (pyKey b ≤ pyKey a))

instance sortRel.isTotal : IsTotal OCRTextResultE sortRel :=
  ⟨fun a b => (le_total (pyKey b) (pyKey a)).imp id id⟩

instance sortRel.isTrans : IsTrans OCRTextResultE sortRel :=
  ⟨fun _ _ _ h1 h2 => le_trans h2 h1⟩

/-- `OCRService._select_best_result`. -/
def select_best_result (results : List OCRTextResultE) : Option OCRTextResultE :=
  if results.isEmpty then none
  else (List.insertionSort sortRel results).head?

/-! ## Variant generator (`app/services/preprocess.py`)

`ImagePreprocessor.__init__` fixes the ordered stage tuple
`(original, grayscale, contrast, median_filter, threshold)`; each stage after
the first consumes the previous stage's output.  The pixel-level transforms
are PIL calls (external collaborators), abstracted here as the fields of
`PipelineOps`.  `_identity` returns `image.copy()`, which is value-equal to
its input, so its value-level denotation is the identity function. -/

structure PipelineOps (Img : Type) where
  to_grayscale : Img → Img
  enhance_contrast : Img → Img
  median_filter : Img → Img
  threshold : Img → Img

/-- The `self.steps` tuple built in `ImagePreprocessor.__init__`. -/
def pipelineSteps {Img : Type} (P : PipelineOps Img) : List (String × (Img → Img)) :=
  [("original", fun i => i),
   ("grayscale", P.to_grayscale),
   ("contrast", P.enhance_contrast),
   ("median_filter", P.median_filter),
   ("threshold", P.threshold)]

/-- The loop body of `ImagePreprocessor.generate`: for each `(label, fn)`,
`base_image = image if label == "original" else current`,
`next_image = fn(base_image)`, emit `(label, next_image)` when
`allowed is None or label in allowed`, and set `current = next_image`.
Python's `set(allowed_labels)` membership is list membership here. -/
def generateAux {Img : Type} (image : Img) (allowed : Option (List String)) :
    List (String × (Img → Img)) → Img → List (String × Img)
  | [], _ => []
  | (label, fn) :: rest, current =>
      let base := if label = "original" then image else current
      let next := fn base
      (if (match allowed with
           | none => true
           | some s => decide (label ∈ s)) then [(label, next)] else []) ++
        generateAux image allowed rest next

/-- `ImagePreprocessor.generate(image, allowed_labels=...)`. -/
def generate {Img : Type} (P : PipelineOps Img) (image : Img)
    (allowed_labels : Option (List String)) : List (String × Img) :=
  generateAux image allowed_labels (pipelineSteps P) image

/-! ### Heap-level view of `generate`

PIL images are mutable heap objects; every operation the pipeline performs
(`image.copy()` in `_identity`, `ImageOps.grayscale`, `ImageOps.autocontrast`,
`Image.filter`, `Image.point(...).convert(...)`) allocates and returns a new
image and leaves its argument untouched.  To state the frame property
(claim about non-mutation of the caller's image) we model the heap as a list
of image values addressed by position; each stage appends one fresh cell and
returns its address. -/

/-- Allocate the result of a PIL operation `f` applied to the image at
address `a`: the heap grows by one fresh cell, nothing else changes. -/
def heapApply {Img : Type} [Inhabited Img] (f : Img → Img)
    (heap : List Img) (a : Nat) : List Img × Nat :=
  (heap ++ [f (heap.getD a default)], heap.length)

/-- The stage tuple of `ImagePreprocessor.__init__`, heap-level: `_identity`
is `image.copy()` (fresh cell, same value, i.e. `heapApply id`). -/
def pipelineStepsH {Img : Type} [Inhabited Img] (P : PipelineOps Img) :
    List (String × (List Img → Nat → List Img × Nat)) :=
  [("original", heapApply (fun i => i)),
   ("grayscale", heapApply P.to_grayscale),
   ("contrast", heapApply P.enhance_contrast),
   ("median_filter", heapApply P.median_filter),
   ("threshold", heapApply P.threshold)]

/-- Heap-level `generate` loop: identical control flow to `generateAux`,
with stage applications threaded through the heap. -/
def generateHAux {Img : Type} [Inhabited Img] (allowed : Option (List String))
    (inputAddr : Nat) :
    List (String × (List Img → Nat → List Img × Nat)) → List Img → Nat →
      List Img × List (String × Nat)
  | [], heap, _ => (heap, [])
  | (label, fn) :: rest, heap, current =>
      let base := if label = "original" then inputAddr else current
      let applied := fn heap base
      let tail := generateHAux allowed inputAddr rest applied.1 applied.2
      (tail.1,
       (if (match allowed with
            | none => true
            | some s => decide (label ∈ s)) then [(label, applied.2)] else []) ++
         tail.2)

/-- Heap-level `ImagePreprocessor.generate`: the caller's image lives at
address `inputAddr`; returns the final heap and the emitted
`(label, address)` pairs. -/
def generateH {Img : Type} [Inhabited Img] (P : PipelineOps Img)
    (heap : List Img) (inputAddr : Nat) (allowed_labels : Option (List String)) :
    List Img × List (String × Nat) :=
  generateHAux allowed_labels inputAddr (pipelineStepsH P) heap inputAddr

/-! ## Recognition engines (`app/services/ocr_base.py` and engine modules)

`OCREngine.run` wraps an external ML engine: it may raise (modelled as
`Except.error`) or return an `OcrOutput(text, confidence)`.
`preferred_variants = none` models an engine without the optional
`preferred_variants` attribute probed by `hasattr` in `OCRService.process`
(e.g. `TesseractEngine`); `some labels` models an engine whose
`preferred_variants()` returns `labels`, as `PaddleOCREngine` returns
`("original", "grayscale", "contrast")`. -/

structure OcrOutputE where
  text : String
  confidence : Option ℚ
deriving DecidableEq, Repr

structure EngineE (Img : Type) where
  name : String
  preferred_variants : Option (List String)
  run : Img → Except String OcrOutputE

/-! ## Orchestration (`OCRService.process`) -/

/-- `app/services/file_processing.py`. -/
def SUPPORTED_IMAGE_EXTENSIONS : List String :=
  [".png", ".jpg", ".jpeg", ".tiff", ".bmp"]

/-- `app/services/file_processing.py`. -/
def SUPPORTED_DOCUMENT_EXTENSIONS : List String :=
  [".pdf", ".doc", ".docx"]

inductive ProcessError where
  | unsupportedFileType (suffix : String)
  | engineFailure (msg : String)
deriving DecidableEq, Repr

/-- The inner variant loop of `OCRService.process`:
`for order, (label, variant_image) in enumerate(variants)` — the derived
`OCRImage` gets `label = f"{db_image.label}_{label}"`, `kind="preprocessed"`,
`sequence=order` (0-based), then `engine.run(variant_image)` produces one
`OCRTextResult` with the raw `result.text` / `result.confidence`.  An engine
exception propagates (`Except.error`). -/
def processVariants {Img : Type} (engine : EngineE Img) (srcLabel : String) :
    List (String × Img) → Nat → Except String (List OCRImageE × List OCRTextResultE)
  | [], _ => .ok ([], [])
  | (label, vimg) :: rest, order =>
      let dbLabel := srcLabel ++ "_" ++ label
      match engine.run vimg with
      | .error e => .error e
      | .ok out =>
          match processVariants engine srcLabel rest (order + 1) with
          | .error e => .error e
          | .ok (imgs, ress) =>
              .ok (⟨"preprocessed", dbLabel, order⟩ :: imgs,
                   ⟨dbLabel, out.text, out.confidence⟩ :: ress)

/-- The page loop of `OCRService.process`:
`for index, (image_path, image) in enumerate(images, start=1)` — one source
`OCRImage` with `label=f"page_{index}"`, `sequence=index`, then the variant
loop over `self.preprocessor.generate(image, allowed_labels=preferred_variants)`
starting at `order = 0`. -/
def processPages {Img : Type} (P : PipelineOps Img) (engine : EngineE Img) :
    List Img → Nat → Except String (List OCRImageE × List OCRTextResultE)
  | [], _ => .ok ([], [])
  | image :: rest, index =>
      let srcLabel := "page_" ++ toString index
      let variants := generate P image engine.preferred_variants
      match processVariants engine srcLabel variants 0 with
      | .error e => .error e
      | .ok (vimgs, ress) =>
          match processPages P engine rest (index + 1) with
          | .error e => .error e
          | .ok (imgs', ress') =>
              .ok ((⟨"source", srcLabel, index⟩ :: vimgs) ++ imgs',
                   ress ++ ress')

/-- `OCRService.process`.  `suffix` is `original_path.suffix.lower()` of the
ingested artifact (the lowercasing by `str.lower` is applied by the caller of
this model; no claim concerns case-sensitivity) (ingestion itself — `save_upload_file`, `uuid` run
directory — is filesystem I/O outside the relational model); `pages` is the
ordered page-image list the source builds before opening the session: for an
image suffix it is the single loaded image, for a document suffix the
rasterizer's output (`pdf_to_images`, an external collaborator).  An
unsupported suffix raises `ValueError(f"Unsupported file type: {suffix}")`
before the session is opened.  At the end of the session,
`best = self._select_best_result(run)`; `if best:` is object truthiness on an
ORM instance, i.e. `best is not None`, so the summary fields are written
exactly when a best result exists. -/
def process {Img : Type} (P : PipelineOps Img) (engine : EngineE Img)
    (suffix : String) (pages : List Img) : Except ProcessError OCRRunE :=
  if suffix ∈ SUPPORTED_IMAGE_EXTENSIONS ∨ suffix ∈ SUPPORTED_DOCUMENT_EXTENSIONS then
    match processPages P engine pages 1 with
    | .error e => .error (.engineFailure e)
    | .ok (imgs, ress) =>
        let best := select_best_result ress
        .ok { engine := engine.name
              images := imgs
              text_results := ress
              summary_text := best.map OCRTextResultE.text
              best_confidence := best.bind OCRTextResultE.confidence }
  else .error (.unsupportedFileType suffix)

/-- `session_scope` (`app/database.py`): the session commits on normal exit
and rolls back and re-raises on any exception, so the run tree built by
`process` is visible to readers exactly when `process` returned normally. -/
def committedRuns (outcome : Except ProcessError OCRRunE) : List OCRRunE :=
  match outcome with
  | .ok run => [run]
  | .error _ => []

/-! ## Presentation-only confidence normalization (`app/main.py`) -/

/-- Python's `f"{x:.2f}"` on a nonnegative value: round to two decimal
places and print with exactly two fractional digits.  (CPython rounds the
underlying binary float half-to-even; on the values appearing in the spec the
rounding is exact, so `round` on `ℚ` agrees.) -/
def fmt2 (q : ℚ) : String :=
  let n : ℤ := round (q * 100)
  let whole := n / 100
  let frac := (n % 100).toNat
  toString whole ++ "." ++ (if frac < 10 then "0" else "") ++ toString frac

/-- `format_confidence` (`app/main.py`): `None` stays absent; a value `> 1`
is capped at `100.0`; a value `≤ 1` is multiplied by `100`; the result is
rendered as `f"{normalized:.2f}%"`. -/
def format_confidence (value : Option ℚ) : Option String :=
  match value with
  | none => none
  | some v =>
      let normalized := if 1 < v then min v 100 else v * 100
      some (fmt2 normalized ++ "%")

/-! ## Demo instantiations used by witnesses and counterexamples

The image type and the pixel transforms are abstract parameters of the
embedding; witnesses instantiate them with `ℕ` and arbitrary injected
arithmetic so that runs evaluate concretely. -/

def natOps : PipelineOps Nat :=
  { to_grayscale := fun n => n + 1
    enhance_contrast := fun n => n + 2
    median_filter := fun n => n + 3
    threshold := fun n => n + 4 }

/-- An engine like `TesseractEngine` (no `preferred_variants` attribute)
that always succeeds with text `"abc"` and no confidence. -/
def okEngine : EngineE Nat :=
  { name := "tesseract"
    preferred_variants := none
    run := fun _ => .ok ⟨"abc", none⟩ }

/-- An always-succeeding engine returning empty text and no confidence. -/
def emptyTextEngine : EngineE Nat :=
  { name := "tesseract"
    preferred_variants := none
    run := fun _ => .ok ⟨"", none⟩ }

/-- An engine whose `run` raises exactly on the second generated variant of
page image `0` (the `grayscale` variant, value `1` under `natOps`). -/
def failSecondEngine : EngineE Nat :=
  { name := "tesseract"
    preferred_variants := none
    run := fun v => if v = 1 then .error "boom" else .ok ⟨"abc", some 2⟩ }

/-- An always-succeeding engine reporting confidence `2`. -/
def confEngine : EngineE Nat :=
  { name := "tesseract"
    preferred_variants := none
    run := fun _ => .ok ⟨"abc", some 2⟩ }

/-- An engine declaring `preferred_variants() = ("original", "grayscale",
"contrast")`, as `PaddleOCREngine` does. -/
def paddleLikeEngine : EngineE Nat :=
  { name := "paddle"
    preferred_variants := some ["original", "grayscale", "contrast"]
    run := fun _ => .ok ⟨"abc", some 2⟩ }

/-! # Theorems -/

/-! ## Best-result selection -/

theorem select_best_result_cons (a : OCRTextResultE) (l : List OCRTextResultE) :
    select_best_result (a :: l) =
      (List.orderedInsert sortRel a (List.insertionSort sortRel l)).head? := by
  simp [select_best_result, List.insertionSort]

/-- The selector returns the first element (in enumeration order) attaining
the maximal key: `sorted(..., reverse=True)` is stable, so key-ties keep
their original order and index `0` is the earliest maximum. -/
theorem select_best_result_spec :
    ∀ (l : List OCRTextResultE), l ≠ [] →
      ∃ l1 m l2, l = l1 ++ m :: l2 ∧ select_best_result l = some m ∧
        (∀ x ∈ l, pyKey x ≤ pyKey m) ∧ (∀ x ∈ l1, pyKey x < pyKey m)
  | [], h => absurd rfl h
  | [a], _ => ⟨[], a, [], rfl, rfl, by simp, by simp⟩
  | a :: b :: l, _ => by
      obtain ⟨l1, m, l2, heq, hsel, hmax, hfirst⟩ :=
        select_best_result_spec (b :: l) (by simp)
      have hhead : (List.insertionSort sortRel (b :: l)).head? = some m := by
        simpa [select_best_result] using hsel
      obtain ⟨s', hs⟩ : ∃ s', List.insertionSort sortRel (b :: l) = m :: s' := by
        cases hcase : List.insertionSort sortRel (b :: l) with
        | nil => rw [hcase] at hhead; simp at hhead
        | cons c cs =>
            rw [hcase] at hhead
            simp at hhead
            exact ⟨cs, by rw [hhead]⟩
      have hsel2 : select_best_result (a :: b :: l) =
          (List.orderedInsert sortRel a (m :: s')).head? := by
        rw [select_best_result_cons, hs]
      by_cases hr : sortRel a m
      · refine ⟨[], a, b :: l, rfl, ?_, ?_, by simp⟩
        · rw [hsel2, List.orderedInsert, if_pos hr]
          rfl
        · intro x hx
          rcases List.mem_cons.mp hx with rfl | hx
          · exact le_refl _
          · exact (hmax x hx).trans hr
      · have hlt : pyKey a < pyKey m := not_le.mp hr
        refine ⟨a :: l1, m, l2, by rw [heq]; rfl, ?_, ?_, ?_⟩
        · rw [hsel2, List.orderedInsert, if_neg hr]
          rfl
        · intro x hx
          rcases List.mem_cons.mp hx with rfl | hx
          · exact le_of_lt hlt
          · exact hmax x hx
        · intro x hx
          rcases List.mem_cons.mp hx with rfl | hx
          · exact hlt
          · exact hfirst x hx

theorem select_best_result_eq_none_iff (l : List OCRTextResultE) :
    select_best_result l = none ↔ l = [] := by
  constructor
  · intro h
    by_contra hne
    obtain ⟨_, m, _, _, hsel, _, _⟩ := select_best_result_spec l hne
    rw [h] at hsel
    exact Option.noConfusion hsel
  · rintro rfl
    rfl

theorem select_best_result_mem {l : List OCRTextResultE} {m : OCRTextResultE}
    (h : select_best_result l = some m) : m ∈ l := by
  have hne : l ≠ [] := by
    rintro rfl
    exact Option.noConfusion h
  obtain ⟨l1, m', l2, heq, hsel, _, _⟩ := select_best_result_spec l hne
  rw [h] at hsel
  obtain rfl : m = m' := by injection hsel
  rw [heq]
  simp

/-- C1. Best-result selection (`OCRService._select_best_result`): `select`
on the empty list returns `none`; on a singleton it returns that element
(whatever its confidence); and on every non-empty list it returns the
element maximal under the lexicographic key (confidence treated as `0` when
absent, then text length), with ties after both keys resolved in favour of
the earliest element in original enumeration order (the stable descending
sort keeps key-ties in enumeration order and index `0` is taken).  The
selector is a pure function of the list, so repeated selections over the
same data return the same result. -/
theorem claim_C1_select_best (rs : List OCRTextResultE) :
    (select_best_result rs = none ↔ rs = []) ∧
    (∀ r, select_best_result [r] = some r) ∧
    (rs ≠ [] →
      ∃ before best after,
        rs = before ++ best :: after ∧
        select_best_result rs = some best ∧
        (∀ x ∈ rs, pyKey x ≤ pyKey best) ∧
        (∀ x ∈ before, pyKey x < pyKey best)) := by
  refine ⟨select_best_result_eq_none_iff rs, fun r => rfl, fun h => ?_⟩
  exact select_best_result_spec rs h

/-- Witness for C1 at concrete inputs: the empty list gives `none`, a
singleton with absent confidence is returned as-is, and a two-element list
admits the first-maximum decomposition. -/
theorem claim_C1_select_best_witness :
    (select_best_result [] = none) ∧
    (select_best_result [⟨"page_1_original", "hi", none⟩] =
      some ⟨"page_1_original", "hi", none⟩) ∧
    (∃ before best after,
      [⟨"page_1_original", "hi", some 1⟩, ⟨"page_1_grayscale", "yo", some 2⟩] =
          before ++ best :: after ∧
        select_best_result
          [⟨"page_1_original", "hi", some 1⟩, ⟨"page_1_grayscale", "yo", some 2⟩] =
          some best ∧
        (∀ x ∈ [(⟨"page_1_original", "hi", some 1⟩ : OCRTextResultE),
                ⟨"page_1_grayscale", "yo", some 2⟩], pyKey x ≤ pyKey best) ∧
        (∀ x ∈ before, pyKey x < pyKey best)) :=
  ⟨(claim_C1_select_best []).1.mpr rfl,
   (claim_C1_select_best []).2.1 _,
   (claim_C1_select_best _).2.2 (by simp)⟩

/-! ## Variant generation -/

theorem generateAux_none_map_fst {Img : Type} (image : Img)
    (st : List (String × (Img → Img))) :
    ∀ cur, (generateAux image none st cur).map Prod.fst = st.map Prod.fst := by
  induction st with
  | nil => intro cur; rfl
  | cons p rest ih =>
      intro cur
      obtain ⟨label, fn⟩ := p
      simp [generateAux, ih]

/-- Filtering by `allowed_labels` only drops emissions; every stage still
executes on the previous stage's output, so the emitted images are those of
the unfiltered run. -/
theorem generateAux_some_eq_filter {Img : Type} (image : Img) (S : List String)
    (st : List (String × (Img → Img))) :
    ∀ cur, generateAux image (some S) st cur =
      (generateAux image none st cur).filter (fun p => decide (p.1 ∈ S)) := by
  induction st with
  | nil => intro cur; rfl
  | cons p rest ih =>
      intro cur
      obtain ⟨label, fn⟩ := p
      by_cases hmem : label ∈ S
      · simp [generateAux, hmem, ih]
      · simp [generateAux, hmem, ih]

theorem generate_some_eq_filter {Img : Type} (P : PipelineOps Img) (image : Img)
    (S : List String) :
    generate P image (some S) =
      (generate P image none).filter (fun p => decide (p.1 ∈ S)) :=
  generateAux_some_eq_filter image S (pipelineSteps P) image

theorem generate_none_map_fst {Img : Type} (P : PipelineOps Img) (image : Img) :
    (generate P image none).map Prod.fst =
      ["original", "grayscale", "contrast", "median_filter", "threshold"] :=
  generateAux_none_map_fst image (pipelineSteps P) image

/-- In a pair list with no duplicate keys, a key determines its value. -/
theorem eq_of_mem_of_nodup_keys {α β : Type} :
    ∀ (ps : List (α × β)), (ps.map Prod.fst).Nodup →
      ∀ (l : α) (x y : β), (l, x) ∈ ps → (l, y) ∈ ps → x = y := by
  intro ps
  induction ps with
  | nil => intro _ l x y hx; exact absurd hx (List.not_mem_nil _)
  | cons p rest ih =>
      intro hnd l x y hx hy
      rw [List.map_cons, List.nodup_cons] at hnd
      rcases List.mem_cons.mp hx with hx0 | hx
      · rcases List.mem_cons.mp hy with hy0 | hy
        · rw [← hx0] at hy0
          exact (Prod.mk.injEq _ _ _ _ ▸ hy0).2.symm
        · exfalso
          apply hnd.1
          have : l ∈ rest.map Prod.fst := List.mem_map_of_mem Prod.fst hy
          rwa [← hx0]
      · rcases List.mem_cons.mp hy with hy0 | hy
        · exfalso
          apply hnd.1
          have : l ∈ rest.map Prod.fst := List.mem_map_of_mem Prod.fst hx
          rwa [← hy0]
        · exact ih hnd.2 l x y hx hy


/-- C4. Variant filtering does not change transform results: for any image
`I` and label sets `A ⊆ A'`, the images `generate(I, A)` and
`generate(I, A')` pair with a common label are identical, because every
stage executes in sequence internally (on the previous stage's output)
whether or not its own output is emitted. -/
theorem claim_C4_filter_preserves_images {Img : Type} (P : PipelineOps Img)
    (I : Img) (A A' : List String) (_hsub : A ⊆ A') (label : String) (x y : Img)
    (hx : (label, x) ∈ generate P I (some A))
    (hy : (label, y) ∈ generate P I (some A')) : x = y := by
  have hx' : (label, x) ∈ generate P I none := by
    have := generate_some_eq_filter P I A ▸ hx
    exact List.mem_of_mem_filter this
  have hy' : (label, y) ∈ generate P I none := by
    have := generate_some_eq_filter P I A' ▸ hy
    exact List.mem_of_mem_filter this
  have hnd : ((generate P I none).map Prod.fst).Nodup := by
    rw [generate_none_map_fst]
    decide
  exact eq_of_mem_of_nodup_keys _ hnd label x y hx' hy'

/-- Witness for C4: with the `ℕ`-instantiated pipeline, the `grayscale`
image emitted under the restricted set `{original, grayscale}` equals the
one emitted under the larger set `{original, grayscale, threshold}`. -/
theorem claim_C4_filter_preserves_images_witness :
    ["original", "grayscale"] ⊆ ["original", "grayscale", "threshold"] ∧
    ("grayscale", (1 : Nat)) ∈ generate natOps 0 (some ["original", "grayscale"]) ∧
    ("grayscale", (1 : Nat)) ∈
      generate natOps 0 (some ["original", "grayscale", "threshold"]) ∧
    (1 : Nat) = 1 :=
  ⟨by decide, by decide, by decide,
   claim_C4_filter_preserves_images natOps 0 ["original", "grayscale"]
     ["original", "grayscale", "threshold"] (by decide) "grayscale" 1 1
     (by decide) (by decide)⟩

/-- C10. `generate` emits exactly the pipeline stages whose label belongs to
the `allowed_labels` collection `S`, in the fixed pipeline order
`original, grayscale, contrast, median_filter, threshold` (the filtered
output is the unrestricted output filtered by membership in `S`); labels of
`S` matching no stage are silently ignored, so an `S` disjoint from the
stage labels — including the empty collection — yields `[]`, not an
error. -/
theorem claim_C10_generate_filtering {Img : Type} (P : PipelineOps Img)
    (I : Img) (S : List String) :
    (generate P I none).map Prod.fst =
      ["original", "grayscale", "contrast", "median_filter", "threshold"] ∧
    generate P I (some S) =
      (generate P I none).filter (fun p => decide (p.1 ∈ S)) ∧
    ((∀ l ∈ S, l ∉ (generate P I none).map Prod.fst) →
      generate P I (some S) = []) := by
  refine ⟨generate_none_map_fst P I, generate_some_eq_filter P I S, fun h => ?_⟩
  rw [generate_some_eq_filter P I S]
  rw [List.filter_eq_nil_iff]
  intro p hp
  simp only [decide_eq_true_eq]
  intro hmem
  exact h p.1 hmem (List.mem_map_of_mem Prod.fst hp)

/-- Witness for C10: a label collection disjoint from the stage labels
(spelling that matches no stage) yields an empty variant list. -/
theorem claim_C10_generate_filtering_witness :
    (∀ l ∈ ["binarize", "original "], l ∉ (generate natOps 0 none).map Prod.fst) ∧
    generate natOps 0 (some ["binarize", "original "]) = [] :=
  ⟨by decide, (claim_C10_generate_filtering natOps 0 _).2.2 (by decide)⟩

/-! ## Orchestration lemmas -/

/-- Inversion of the variant loop on success: the derived-image sequence
numbers are the enumeration indices `k, k+1, ...`, every derived image has
kind `"preprocessed"`, one text result per variant exists, every variant's
engine call succeeded, and every stored result carries the engine's raw
output verbatim. -/
theorem processVariants_ok {Img : Type} (engine : EngineE Img) (srcLabel : String) :
    ∀ (vs : List (String × Img)) (k : Nat) (imgs : List OCRImageE)
      (ress : List OCRTextResultE),
      processVariants engine srcLabel vs k = .ok (imgs, ress) →
      imgs.map OCRImageE.sequence = List.range' k vs.length ∧
      ress.length = vs.length ∧
      (∀ i ∈ imgs, i.kind = "preprocessed") ∧
      (∀ lv ∈ vs, ∃ out, engine.run lv.2 = .ok out) ∧
      (∀ r ∈ ress, ∃ v, v ∈ vs ∧ engine.run v.2 = .ok ⟨r.text, r.confidence⟩) := by
  intro vs
  induction vs with
  | nil =>
      intro k imgs ress h
      simp only [processVariants] at h
      obtain ⟨rfl, rfl⟩ : imgs = [] ∧ ress = [] := by
        constructor <;> cases h <;> rfl
      simp
  | cons lv rest ih =>
      intro k imgs ress h
      obtain ⟨label, vimg⟩ := lv
      cases hrun : engine.run vimg with
      | error e =>
          simp only [processVariants, hrun] at h
          exact Except.noConfusion h
      | ok out =>
          simp only [processVariants, hrun] at h
          cases hrec : processVariants engine srcLabel rest (k + 1) with
          | error e => rw [hrec] at h; simp at h
          | ok pr =>
              obtain ⟨imgs', ress'⟩ := pr
              rw [hrec] at h
              simp only [Except.ok.injEq, Prod.mk.injEq] at h
              obtain ⟨rfl, rfl⟩ := h
              obtain ⟨hseq, hlen, hkind, hall, hraw⟩ := ih (k + 1) imgs' ress' hrec
              refine ⟨?_, ?_, ?_, ?_, ?_⟩
              · simp only [List.map_cons, hseq, List.length_cons]
                rw [List.range'_succ k rest.length 1]
              · simp [hlen]
              · intro i hi
                rcases List.mem_cons.mp hi with rfl | hi
                · rfl
                · exact hkind i hi
              · intro lv hlv
                rcases List.mem_cons.mp hlv with rfl | hlv
                · exact ⟨out, hrun⟩
                · exact hall lv hlv
              · intro r hr
                rcases List.mem_cons.mp hr with rfl | hr
                · exact ⟨(label, vimg), List.mem_cons_self _ _, hrun⟩
                · obtain ⟨v, hv, hvr⟩ := hraw r hr
                  exact ⟨v, List.mem_cons_of_mem _ hv, hvr⟩

/-- If some variant's engine call raises, the variant loop raises. -/
theorem processVariants_error {Img : Type} (engine : EngineE Img)
    (srcLabel : String) (vs : List (String × Img)) (k : Nat)
    (lv : String × Img) (hlv : lv ∈ vs) (e : String)
    (he : engine.run lv.2 = .error e) :
    ∃ msg, processVariants engine srcLabel vs k = .error msg := by
  cases h : processVariants engine srcLabel vs k with
  | error msg => exact ⟨msg, rfl⟩
  | ok pr =>
      obtain ⟨imgs, ress⟩ := pr
      obtain ⟨_, _, _, hall, _⟩ := processVariants_ok engine srcLabel vs k imgs ress h
      obtain ⟨out, hout⟩ := hall lv hlv
      rw [he] at hout
      exact absurd hout (by simp)

/-- On success every recognition call of the run succeeded. -/
theorem processPages_ok_calls {Img : Type} (P : PipelineOps Img)
    (engine : EngineE Img) :
    ∀ (pages : List Img) (idx : Nat) (imgs : List OCRImageE)
      (ress : List OCRTextResultE),
      processPages P engine pages idx = .ok (imgs, ress) →
      ∀ img ∈ pages, ∀ lv ∈ generate P img engine.preferred_variants,
        ∃ out, engine.run lv.2 = .ok out := by
  intro pages
  induction pages with
  | nil => intro idx imgs ress _ img himg; exact absurd himg (List.not_mem_nil _)
  | cons pg rest ih =>
      intro idx imgs ress h img himg lv hlv
      simp only [processPages] at h
      cases hv : processVariants engine ("page_" ++ toString idx)
          (generate P pg engine.preferred_variants) 0 with
      | error e => rw [hv] at h; exact Except.noConfusion h
      | ok pr1 =>
          obtain ⟨vimgs, ress1⟩ := pr1
          rw [hv] at h
          cases hrec : processPages P engine rest (idx + 1) with
          | error e => rw [hrec] at h; exact Except.noConfusion h
          | ok pr2 =>
              obtain ⟨imgs', ress'⟩ := pr2
              rw [hrec] at h
              rcases List.mem_cons.mp himg with rfl | himg
              · obtain ⟨_, _, _, hall, _⟩ :=
                  processVariants_ok engine _ _ _ _ _ hv
                exact hall lv hlv
              · exact ih (idx + 1) imgs' ress' hrec img himg lv hlv

/-- If any variant of any page fails recognition, the page loop raises. -/
theorem processPages_error {Img : Type} (P : PipelineOps Img)
    (engine : EngineE Img) (pages : List Img) (idx : Nat) (img : Img)
    (himg : img ∈ pages) (lv : String × Img)
    (hlv : lv ∈ generate P img engine.preferred_variants) (e : String)
    (he : engine.run lv.2 = .error e) :
    ∃ msg, processPages P engine pages idx = .error msg := by
  cases h : processPages P engine pages idx with
  | error msg => exact ⟨msg, rfl⟩
  | ok pr =>
      obtain ⟨imgs, ress⟩ := pr
      obtain ⟨out, hout⟩ :=
        processPages_ok_calls P engine pages idx imgs ress h img himg lv hlv
      rw [he] at hout
      exact absurd hout (by simp)

/-- On success every stored text result is the engine's raw output for some
variant image: nothing between the backend and the store rescales or edits
text or confidence. -/
theorem processPages_ok_raw {Img : Type} (P : PipelineOps Img)
    (engine : EngineE Img) :
    ∀ (pages : List Img) (idx : Nat) (imgs : List OCRImageE)
      (ress : List OCRTextResultE),
      processPages P engine pages idx = .ok (imgs, ress) →
      ∀ r ∈ ress, ∃ v, engine.run v = .ok ⟨r.text, r.confidence⟩ := by
  intro pages
  induction pages with
  | nil =>
      intro idx imgs ress h r hr
      simp only [processPages] at h
      obtain rfl : ress = [] := by cases h; rfl
      exact absurd hr (List.not_mem_nil _)
  | cons pg rest ih =>
      intro idx imgs ress h r hr
      simp only [processPages] at h
      cases hv : processVariants engine ("page_" ++ toString idx)
          (generate P pg engine.preferred_variants) 0 with
      | error e => rw [hv] at h; exact Except.noConfusion h
      | ok pr1 =>
          obtain ⟨vimgs, ress1⟩ := pr1
          rw [hv] at h
          cases hrec : processPages P engine rest (idx + 1) with
          | error e => rw [hrec] at h; exact Except.noConfusion h
          | ok pr2 =>
              obtain ⟨imgs', ress'⟩ := pr2
              rw [hrec] at h
              simp only [Except.ok.injEq, Prod.mk.injEq] at h
              obtain ⟨-, rfl⟩ := h
              rcases List.mem_append.mp hr with hr1 | hr2
              · obtain ⟨-, -, -, -, hraw⟩ :=
                  processVariants_ok engine _ _ _ _ _ hv
                obtain ⟨v, -, hvr⟩ := hraw r hr1
                exact ⟨v.2, hvr⟩
              · exact ih (idx + 1) imgs' ress' hrec r hr2

/-- On success, with a uniform per-page variant count `c`, the run holds
exactly one source image per page, `c` derived images per page and `c` text
results per page. -/
theorem processPages_ok_counts {Img : Type} (P : PipelineOps Img)
    (engine : EngineE Img) (c : Nat) :
    ∀ (pages : List Img) (idx : Nat) (imgs : List OCRImageE)
      (ress : List OCRTextResultE),
      processPages P engine pages idx = .ok (imgs, ress) →
      (∀ img ∈ pages, (generate P img engine.preferred_variants).length = c) →
      (imgs.filter (fun i => i.kind == "preprocessed")).length = c * pages.length ∧
      (imgs.filter (fun i => i.kind == "source")).length = pages.length ∧
      ress.length = c * pages.length := by
  intro pages
  induction pages with
  | nil =>
      intro idx imgs ress h _
      simp only [processPages] at h
      obtain ⟨rfl, rfl⟩ : imgs = [] ∧ ress = [] := by
        constructor <;> cases h <;> rfl
      simp
  | cons pg rest ih =>
      intro idx imgs ress h hc
      simp only [processPages] at h
      cases hv : processVariants engine ("page_" ++ toString idx)
          (generate P pg engine.preferred_variants) 0 with
      | error e => rw [hv] at h; exact Except.noConfusion h
      | ok pr1 =>
          obtain ⟨vimgs, ress1⟩ := pr1
          rw [hv] at h
          cases hrec : processPages P engine rest (idx + 1) with
          | error e => rw [hrec] at h; exact Except.noConfusion h
          | ok pr2 =>
              obtain ⟨imgs', ress'⟩ := pr2
              rw [hrec] at h
              simp only [Except.ok.injEq, Prod.mk.injEq] at h
              obtain ⟨rfl, rfl⟩ := h
              obtain ⟨hseq, hlen1, hkind, -, -⟩ :=
                processVariants_ok engine _ _ _ _ _ hv
              have hvlen : vimgs.length = c := by
                have := congrArg List.length hseq
                simpa [hc pg (List.mem_cons_self _ _)] using this
              have hfilter1 :
                  vimgs.filter (fun i => i.kind == "preprocessed") = vimgs :=
                List.filter_eq_self.mpr (fun i hi => by
                  simp [hkind i hi])
              have hfilter2 :
                  vimgs.filter (fun i => i.kind == "source") = [] :=
                List.filter_eq_nil_iff.mpr (fun i hi => by
                  simp [hkind i hi])
              obtain ⟨ih1, ih2, ih3⟩ := ih (idx + 1) imgs' ress' hrec
                (fun img himg => hc img (List.mem_cons_of_mem _ himg))
              refine ⟨?_, ?_, ?_⟩
              · simp only [List.cons_append, List.filter_append, List.filter_cons,
                  List.length_append]
                simp only [show (("source" : String) == "preprocessed") = false from rfl]
                simp [hfilter1, hfilter2, ih1, hvlen, Nat.mul_succ, Nat.add_comm]
              · simp only [List.cons_append, List.filter_append, List.filter_cons,
                  List.length_append]
                simp only [show (("source" : String) == "source") = true from rfl]
                simp [hfilter1, hfilter2, ih2]
              · have h1 : ress1.length = c := by rw [hlen1, hc pg (List.mem_cons_self _ _)]
                simp [List.length_append, h1, ih3, Nat.mul_succ, Nat.add_comm]

/-- On success the run's image list decomposes page by page: one source
image per page (sequence = its 1-based page index offset from `idx`),
followed by that page's derived variants, whose sequence numbers are the
enumeration indices `0, 1, 2, ...` — restarting from `0` on every page. -/
theorem processPages_ok_structure {Img : Type} (P : PipelineOps Img)
    (engine : EngineE Img) :
    ∀ (pages : List Img) (idx : Nat) (imgs : List OCRImageE)
      (ress : List OCRTextResultE),
      processPages P engine pages idx = .ok (imgs, ress) →
      ∃ perPage : List (OCRImageE × List OCRImageE),
        perPage.length = pages.length ∧
        imgs = (perPage.map (fun pr => pr.1 :: pr.2)).flatten ∧
        ∀ (i : Nat) (h : i < perPage.length),
          (perPage.get ⟨i, h⟩).1.kind = "source" ∧
          (perPage.get ⟨i, h⟩).1.sequence = idx + i ∧
          (∀ d ∈ (perPage.get ⟨i, h⟩).2, d.kind = "preprocessed") ∧
          ((perPage.get ⟨i, h⟩).2.map OCRImageE.sequence) =
            List.range (perPage.get ⟨i, h⟩).2.length := by
  intro pages
  induction pages with
  | nil =>
      intro idx imgs ress h
      simp only [processPages] at h
      obtain ⟨rfl, rfl⟩ : imgs = [] ∧ ress = [] := by
        constructor <;> cases h <;> rfl
      exact ⟨[], rfl, rfl, fun i h => absurd h (by simp)⟩
  | cons pg rest ih =>
      intro idx imgs ress h
      simp only [processPages] at h
      cases hv : processVariants engine ("page_" ++ toString idx)
          (generate P pg engine.preferred_variants) 0 with
      | error e => rw [hv] at h; exact Except.noConfusion h
      | ok pr1 =>
          obtain ⟨vimgs, ress1⟩ := pr1
          rw [hv] at h
          cases hrec : processPages P engine rest (idx + 1) with
          | error e => rw [hrec] at h; exact Except.noConfusion h
          | ok pr2 =>
              obtain ⟨imgs', ress'⟩ := pr2
              rw [hrec] at h
              simp only [Except.ok.injEq, Prod.mk.injEq] at h
              obtain ⟨rfl, rfl⟩ := h
              obtain ⟨hseq, -, hkind, -, -⟩ :=
                processVariants_ok engine _ _ _ _ _ hv
              obtain ⟨perPage', hlen', himgs', hfacts'⟩ :=
                ih (idx + 1) imgs' ress' hrec
              refine ⟨(⟨"source", "page_" ++ toString idx, idx⟩, vimgs) :: perPage',
                by simp [hlen'], by simp [himgs'], ?_⟩
              intro i h
              match i with
              | 0 =>
                  refine ⟨rfl, by simp, fun d hd => hkind d hd, ?_⟩
                  have hvl : vimgs.length =
                      (generate P pg engine.preferred_variants).length := by
                    have := congrArg List.length hseq
                    simpa using this
                  rw [List.get, hseq, hvl, List.range_eq_range']
              | Nat.succ j =>
                  have hj : j < perPage'.length := by
                    simpa using Nat.lt_of_succ_lt_succ h
                  obtain ⟨f1, f2, f3, f4⟩ := hfacts' j hj
                  exact ⟨f1, by rw [List.get, f2]; omega, f3, f4⟩

/-- Inversion of `process` on success: the suffix was supported, the page
loop succeeded, and the run record's fields are exactly the loop outputs
with the summary taken from `select_best_result`. -/
theorem process_ok_inv {Img : Type} (P : PipelineOps Img) (engine : EngineE Img)
    (suffix : String) (pages : List Img) (t : OCRRunE)
    (h : process P engine suffix pages = .ok t) :
    (suffix ∈ SUPPORTED_IMAGE_EXTENSIONS ∨
      suffix ∈ SUPPORTED_DOCUMENT_EXTENSIONS) ∧
    ∃ imgs ress, processPages P engine pages 1 = .ok (imgs, ress) ∧
      t.engine = engine.name ∧
      t.images = imgs ∧
      t.text_results = ress ∧
      t.summary_text = (select_best_result ress).map OCRTextResultE.text ∧
      t.best_confidence = (select_best_result ress).bind OCRTextResultE.confidence := by
  by_cases hs : suffix ∈ SUPPORTED_IMAGE_EXTENSIONS ∨
      suffix ∈ SUPPORTED_DOCUMENT_EXTENSIONS
  · refine ⟨hs, ?_⟩
    rw [process] at h
    simp only [if_pos hs] at h
    cases hp : processPages P engine pages 1 with
    | error e => rw [hp] at h; exact Except.noConfusion h
    | ok pr =>
        obtain ⟨imgs, ress⟩ := pr
        rw [hp] at h
        simp only [Except.ok.injEq] at h
        exact ⟨imgs, ress, rfl, by rw [← h], by rw [← h], by rw [← h],
          by rw [← h], by rw [← h]⟩
  · rw [process] at h
    simp only [if_neg hs] at h
    exact Except.noConfusion h

theorem generate_none_length {Img : Type} (P : PipelineOps Img) (img : Img) :
    (generate P img none).length = 5 := by
  have := congrArg List.length (generate_none_map_fst P img)
  simpa using this

theorem generate_some_length {Img : Type} (P : PipelineOps Img) (img : Img)
    (S : List String) :
    (generate P img (some S)).length =
      (["original", "grayscale", "contrast", "median_filter",
        "threshold"].countP (fun l => decide (l ∈ S))) := by
  rw [generate_some_eq_filter, ← List.countP_eq_length_filter,
    ← generate_none_map_fst P img, List.countP_map]
  rfl

/-- C2. All-or-nothing recognition: if the engine's recognition call raises
on any generated variant of any page of a supported-format run, `process`
propagates an engine failure and the transaction of `session_scope` rolls
back, so no `OCRRun` (hence no image row and no text-result row of that
attempt) is visible to readers — even when other variants (e.g. the first)
would have succeeded. -/
theorem claim_C2_all_or_nothing {Img : Type} (P : PipelineOps Img)
    (engine : EngineE Img) (suffix : String) (pages : List Img) (img : Img)
    (lv : String × Img)
    (hs : suffix ∈ SUPPORTED_IMAGE_EXTENSIONS ∨
      suffix ∈ SUPPORTED_DOCUMENT_EXTENSIONS)
    (himg : img ∈ pages)
    (hlv : lv ∈ generate P img engine.preferred_variants)
    (he : ∃ e, engine.run lv.2 = .error e) :
    (∃ msg, process P engine suffix pages = .error (.engineFailure msg)) ∧
    committedRuns (process P engine suffix pages) = [] := by
  obtain ⟨e, he⟩ := he
  obtain ⟨msg, hmsg⟩ := processPages_error P engine pages 1 img himg lv hlv e he
  have hproc : process P engine suffix pages = .error (.engineFailure msg) := by
    rw [process]
    simp only [if_pos hs, hmsg]
  exact ⟨⟨msg, hproc⟩, by rw [hproc]; rfl⟩

/-- Witness for C2: `failSecondEngine` succeeds on the first variant of the
single page but raises on the second (`grayscale`) variant; the run commits
nothing. -/
theorem claim_C2_all_or_nothing_witness :
    failSecondEngine.run 0 = .ok ⟨"abc", some 2⟩ ∧
    ("grayscale", (1 : Nat)) ∈ generate natOps 0 failSecondEngine.preferred_variants ∧
    failSecondEngine.run 1 = .error "boom" ∧
    committedRuns (process natOps failSecondEngine ".png" [0]) = [] :=
  ⟨rfl, by decide, rfl,
   (claim_C2_all_or_nothing natOps failSecondEngine ".png" [0] 0 ("grayscale", 1)
     (Or.inl (by decide)) (by decide) (by decide) ⟨"boom", rfl⟩).2⟩

/-- C6. Unsupported format: when the (lowercased) filename extension is
neither a supported image extension nor a supported document extension,
`process` fails with the unsupported-file-type error before the database
session is ever opened, so no `OCRRun` and no `OCRTextResult` row is
persisted for the attempt.  (The ingested artifact itself is filesystem
state written before the extension check and is outside the relational
model.) -/
theorem claim_C6_unsupported_format {Img : Type} (P : PipelineOps Img)
    (engine : EngineE Img) (suffix : String) (pages : List Img)
    (h1 : suffix ∉ SUPPORTED_IMAGE_EXTENSIONS)
    (h2 : suffix ∉ SUPPORTED_DOCUMENT_EXTENSIONS) :
    process P engine suffix pages = .error (.unsupportedFileType suffix) ∧
    committedRuns (process P engine suffix pages) = [] := by
  have hproc : process P engine suffix pages =
      .error (.unsupportedFileType suffix) := by
    rw [process]
    exact if_neg (not_or.mpr ⟨h1, h2⟩)
  exact ⟨hproc, by rw [hproc]; rfl⟩

/-- Witness for C6 at the extension `".txt"`. -/
theorem claim_C6_unsupported_format_witness :
    process natOps okEngine ".txt" [0] =
      .error (.unsupportedFileType ".txt") ∧
    committedRuns (process natOps okEngine ".txt" [0]) = [] :=
  claim_C6_unsupported_format natOps okEngine ".txt" [0] (by decide) (by decide)

/-- C7. Per-page variant and result counts: every source page contributes
one derived image and one text result per allowed stage — 5 of each per
page when the engine declares no preferred-variant restriction, and exactly
3 derived images (and 3 results) per page when it declares preferred
variants `{original, grayscale, contrast}`; either way there is exactly one
source image per page. -/
theorem claim_C7_variant_counts {Img : Type} (P : PipelineOps Img)
    (engine : EngineE Img) (suffix : String) (pages : List Img) (t : OCRRunE)
    (h : process P engine suffix pages = .ok t) :
    (engine.preferred_variants = none →
      (t.images.filter (fun i => i.kind == "preprocessed")).length =
        5 * pages.length ∧
      t.text_results.length = 5 * pages.length ∧
      (t.images.filter (fun i => i.kind == "source")).length = pages.length) ∧
    (engine.preferred_variants = some ["original", "grayscale", "contrast"] →
      (t.images.filter (fun i => i.kind == "preprocessed")).length =
        3 * pages.length ∧
      t.text_results.length = 3 * pages.length ∧
      (t.images.filter (fun i => i.kind == "source")).length = pages.length) := by
  obtain ⟨-, imgs, ress, hp, -, himgs, hress, -, -⟩ :=
    process_ok_inv P engine suffix pages t h
  constructor
  · intro hnone
    obtain ⟨c1, c2, c3⟩ := processPages_ok_counts P engine 5 pages 1 imgs ress hp
      (fun img _ => by rw [hnone]; exact generate_none_length P img)
    rw [himgs, hress]
    exact ⟨c1, c3, c2⟩
  · intro hsome
    obtain ⟨c1, c2, c3⟩ := processPages_ok_counts P engine 3 pages 1 imgs ress hp
      (fun img _ => by rw [hsome, generate_some_length]; decide)
    rw [himgs, hress]
    exact ⟨c1, c3, c2⟩

/-- Witness for C7: a one-page run with an unrestricted engine persists 5
derived images and 5 results; with the Paddle-like preferred set it
persists 3 derived images. -/
theorem claim_C7_variant_counts_witness :
    (∃ t, process natOps okEngine ".png" [0] = Except.ok t ∧
      (t.images.filter (fun i => i.kind == "preprocessed")).length = 5 ∧
      t.text_results.length = 5) ∧
    (∃ t, process natOps paddleLikeEngine ".png" [0] = Except.ok t ∧
      (t.images.filter (fun i => i.kind == "preprocessed")).length = 3 ∧
      t.text_results.length = 3) := by
  constructor
  · refine ⟨_, rfl, ?_, ?_⟩
    · exact ((claim_C7_variant_counts natOps okEngine ".png" [0] _ rfl).1 rfl).1
    · exact ((claim_C7_variant_counts natOps okEngine ".png" [0] _ rfl).1 rfl).2.1
  · refine ⟨_, rfl, ?_, ?_⟩
    · exact ((claim_C7_variant_counts natOps paddleLikeEngine ".png" [0] _ rfl).2 rfl).1
    · exact ((claim_C7_variant_counts natOps paddleLikeEngine ".png" [0] _ rfl).2 rfl).2.1

/-- Counterexample to C3 as stated: a committed run whose five text results
all carry a null confidence has `summary_text` set but `best_confidence`
absent, so "the summary fields (summary text and summary confidence) are
set iff at least one text result exists" is false — the right-hand side
holds while `best_confidence` is `none`. -/
theorem claim_C3_summary_counterexample :
    ∃ t, process natOps okEngine ".png" [0] = Except.ok t ∧
      t.text_results ≠ [] ∧ t.summary_text.isSome ∧ t.best_confidence = none := by
  refine ⟨_, rfl, ?_, ?_, rfl⟩ <;> decide

/-- C3 (amended). Run summary invariant as the code implements it: for every
run produced by `process`, the summary *text* is set iff at least one text
result exists; the summary *confidence* is set iff, in addition, the
selected best result's own confidence is non-null (`run.best_confidence =
best.confidence` copies the raw nullable field); and a run whose text
results all have empty text still gets a summary — the empty string, not
absent. -/
theorem claim_C3_summary_invariant {Img : Type} (P : PipelineOps Img)
    (engine : EngineE Img) (suffix : String) (pages : List Img) (t : OCRRunE)
    (h : process P engine suffix pages = .ok t) :
    (t.summary_text.isSome ↔ t.text_results ≠ []) ∧
    (t.best_confidence.isSome ↔
      ∃ b, select_best_result t.text_results = some b ∧ b.confidence.isSome) ∧
    ((t.text_results ≠ [] ∧ ∀ r ∈ t.text_results, r.text = "") →
      t.summary_text = some "") := by
  obtain ⟨-, imgs, ress, -, -, -, hress, hsum, hconf⟩ :=
    process_ok_inv P engine suffix pages t h
  refine ⟨?_, ?_, ?_⟩
  · rw [hsum, hress]
    cases hsel : select_best_result ress with
    | none =>
        rw [(select_best_result_eq_none_iff ress).mp hsel]
        simp
    | some b =>
        have : ress ≠ [] := by
          rintro rfl
          exact Option.noConfusion ((rfl : select_best_result [] = none) ▸ hsel)
        simp [this]
  · rw [hconf, hress]
    cases hsel : select_best_result ress with
    | none => simp
    | some b => simp [Option.isSome_iff_exists]
  · rintro ⟨hne, hall⟩
    rw [hress] at hne hall
    rw [hsum]
    cases hsel : select_best_result ress with
    | none => exact absurd ((select_best_result_eq_none_iff ress).mp hsel) hne
    | some b =>
        have hb : b ∈ ress := select_best_result_mem hsel
        simp [hall b hb]

/-- Witness for the amended C3: an engine returning empty text on every
variant still yields a committed run with `summary_text = some ""`. -/
theorem claim_C3_summary_invariant_witness :
    ∃ t, process natOps emptyTextEngine ".png" [0] = Except.ok t ∧
      t.summary_text = some "" := by
  refine ⟨_, rfl, ?_⟩
  exact (claim_C3_summary_invariant natOps emptyTextEngine ".png" [0] _ rfl).2.2
    ⟨by decide, by decide⟩

/-- Counterexample to C5 as stated: in a two-page run the derived images'
sequence numbers in generation order are `0,1,2,3,4,0,1,2,3,4` — the
enumeration counter restarts at `0` on every page — so they are not
monotonically increasing across the run (not even weakly sorted), and
distinct images of the run share a sequence number, so sequence numbers do
not establish intra-run ordering of a run's images. -/
theorem claim_C5_sequence_counterexample :
    ∃ t, process natOps okEngine ".png" [0, 5] = Except.ok t ∧
      ((t.images.filter (fun i => i.kind == "preprocessed")).map
          OCRImageE.sequence) = [0, 1, 2, 3, 4, 0, 1, 2, 3, 4] ∧
      (t.images.map OCRImageE.sequence) =
        [1, 0, 1, 2, 3, 4, 2, 0, 1, 2, 3, 4] ∧
      ¬ List.Sorted (· ≤ ·) ([0, 1, 2, 3, 4, 0, 1, 2, 3, 4] : List Nat) ∧
      ¬ ([1, 0, 1, 2, 3, 4, 2, 0, 1, 2, 3, 4] : List Nat).Nodup := by
  refine ⟨_, rfl, ?_, ?_, ?_, ?_⟩ <;> decide

/-- C5 (amended). Derived-image sequence numbers, as the code assigns them:
within each page the emitted variants receive sequence numbers
`0, 1, 2, ...` strictly increasing in generation order (`enumerate` over the
generated variants), but the numbering restarts at `0` for every page, while
source pages are numbered `1..N` separately — so sequence numbers order the
variants of one page, not all images of a run. -/
theorem claim_C5_sequence_numbers {Img : Type} (P : PipelineOps Img)
    (engine : EngineE Img) (suffix : String) (pages : List Img) (t : OCRRunE)
    (h : process P engine suffix pages = .ok t) :
    ∃ perPage : List (OCRImageE × List OCRImageE),
      perPage.length = pages.length ∧
      t.images = (perPage.map (fun pr => pr.1 :: pr.2)).flatten ∧
      ∀ (i : Nat) (hi : i < perPage.length),
        (perPage.get ⟨i, hi⟩).1.kind = "source" ∧
        (perPage.get ⟨i, hi⟩).1.sequence = i + 1 ∧
        (∀ d ∈ (perPage.get ⟨i, hi⟩).2, d.kind = "preprocessed") ∧
        ((perPage.get ⟨i, hi⟩).2.map OCRImageE.sequence) =
          List.range (perPage.get ⟨i, hi⟩).2.length := by
  obtain ⟨-, imgs, ress, hp, -, himgs, -, -, -⟩ :=
    process_ok_inv P engine suffix pages t h
  obtain ⟨perPage, h1, h2, h3⟩ :=
    processPages_ok_structure P engine pages 1 imgs ress hp
  refine ⟨perPage, h1, by rw [himgs, h2], ?_⟩
  intro i hi
  obtain ⟨f1, f2, f3, f4⟩ := h3 i hi
  exact ⟨f1, by rw [f2]; omega, f3, f4⟩

/-- Witness for the amended C5 on a concrete two-page run. -/
theorem claim_C5_sequence_numbers_witness :
    ∃ t, process natOps confEngine ".png" [0, 5] = Except.ok t ∧
      ∃ perPage : List (OCRImageE × List OCRImageE),
        perPage.length = 2 ∧
        t.images = (perPage.map (fun pr => pr.1 :: pr.2)).flatten ∧
        ∀ (i : Nat) (hi : i < perPage.length),
          (perPage.get ⟨i, hi⟩).1.kind = "source" ∧
          (perPage.get ⟨i, hi⟩).1.sequence = i + 1 ∧
          (∀ d ∈ (perPage.get ⟨i, hi⟩).2, d.kind = "preprocessed") ∧
          ((perPage.get ⟨i, hi⟩).2.map OCRImageE.sequence) =
            List.range (perPage.get ⟨i, hi⟩).2.length := by
  refine ⟨_, rfl, ?_⟩
  exact claim_C5_sequence_numbers natOps confEngine ".png" [0, 5] _ rfl

/-- C8. Confidence display normalization: `format_confidence` multiplies a
value on the `0–1` scale (`≤ 1`) by `100` and caps a value on the `0–100+`
scale (`> 1`) at `100`, rendering with two decimals and a percent sign —
`0.87 → "87.00%"`, `95.2 → "95.20%"`, `150 → "100.00%"`, absent → absent.
It is presentation-only: `process` stores every text result's confidence as
the engine's raw output verbatim (final conjunct), and the selection order
`pyKey` reads that raw stored `confidence` field directly, so the
normalization feeds into neither storage nor selection. -/
theorem claim_C8_confidence_display {Img : Type} (P : PipelineOps Img)
    (engine : EngineE Img) (suffix : String) (pages : List Img) (t : OCRRunE)
    (h : process P engine suffix pages = .ok t) :
    format_confidence (some (87 / 100)) = some "87.00%" ∧
    format_confidence (some (952 / 10)) = some "95.20%" ∧
    format_confidence (some 150) = some "100.00%" ∧
    format_confidence none = none ∧
    (∀ v : ℚ, v ≤ 1 → format_confidence (some v) = some (fmt2 (v * 100) ++ "%")) ∧
    (∀ v : ℚ, 1 < v → format_confidence (some v) = some (fmt2 (min v 100) ++ "%")) ∧
    (∀ r ∈ t.text_results, ∃ v, engine.run v = .ok ⟨r.text, r.confidence⟩) := by
  refine ⟨?_, ?_, ?_, rfl, ?_, ?_, ?_⟩
  · simp only [format_confidence]
    rw [if_neg (by norm_num)]
    have hm : ((87 : ℚ) / 100) * 100 = 87 := by norm_num
    rw [hm]
    have hr : round ((87 : ℚ) * 100) = 8700 := by norm_num [round_eq]
    simp only [fmt2, hr]
    decide
  · simp only [format_confidence]
    rw [if_pos (by norm_num)]
    have hm : min ((952 : ℚ) / 10) 100 = 952 / 10 := by norm_num
    rw [hm]
    have hr : round ((952 : ℚ) / 10 * 100) = 9520 := by norm_num [round_eq]
    simp only [fmt2, hr]
    decide
  · simp only [format_confidence]
    rw [if_pos (by norm_num)]
    have hm : min (150 : ℚ) 100 = 100 := by norm_num
    rw [hm]
    have hr : round ((100 : ℚ) * 100) = 10000 := by norm_num [round_eq]
    simp only [fmt2, hr]
    decide
  · intro v hv
    simp only [format_confidence]
    rw [if_neg (not_lt.mpr hv)]
  · intro v hv
    simp only [format_confidence]
    rw [if_pos hv]
  · obtain ⟨-, imgs, ress, hp, -, -, hress, -, -⟩ :=
      process_ok_inv P engine suffix pages t h
    rw [hress]
    exact processPages_ok_raw P engine pages 1 imgs ress hp

/-- Witness for C8: a concrete committed run whose stored confidences are
exactly the engine's raw outputs, together with the `0.87` display
example. -/
theorem claim_C8_confidence_display_witness :
    ∃ t, process natOps confEngine ".png" [0] = Except.ok t ∧
      format_confidence (some (87 / 100)) = some "87.00%" ∧
      (∀ r ∈ t.text_results, ∃ v, confEngine.run v = .ok ⟨r.text, r.confidence⟩) := by
  refine ⟨_, rfl, ?_, ?_⟩
  · exact (claim_C8_confidence_display natOps confEngine ".png" [0] _ rfl).1
  · exact (claim_C8_confidence_display natOps confEngine ".png" [0] _ rfl).2.2.2.2.2.2

/-- Every stage of the heap-level pipeline is a pure allocator: it appends
one fresh cell and returns its address; the `original` stage's cell holds a
copy of the image at the address it was applied to. -/
theorem pipelineStepsH_alloc {Img : Type} [Inhabited Img] (P : PipelineOps Img) :
    ∀ p ∈ pipelineStepsH P, ∀ (σ : List Img) (a : Nat),
      ∃ v, p.2 σ a = (σ ++ [v], σ.length) ∧
        (p.1 = "original" → v = σ.getD a default) := by
  intro p hp σ a
  simp only [pipelineStepsH, List.mem_cons, List.not_mem_nil, or_false] at hp
  rcases hp with rfl | rfl | rfl | rfl | rfl
  · exact ⟨σ.getD a default, rfl, fun _ => rfl⟩
  · exact ⟨P.to_grayscale (σ.getD a default), rfl, fun hl => by simp at hl⟩
  · exact ⟨P.enhance_contrast (σ.getD a default), rfl, fun hl => by simp at hl⟩
  · exact ⟨P.median_filter (σ.getD a default), rfl, fun hl => by simp at hl⟩
  · exact ⟨P.threshold (σ.getD a default), rfl, fun hl => by simp at hl⟩

/-- Frame property of the heap-level generation loop: when every stage is a
single-cell allocator, the loop only appends to the heap — pre-existing
cells (the caller's image among them) are untouched — all emitted addresses
are fresh, and every emitted `original` cell holds the input image's
value. -/
theorem generateHAux_frame {Img : Type} [Inhabited Img]
    (allowed : Option (List String)) (inputAddr : Nat) :
    ∀ (st : List (String × (List Img → Nat → List Img × Nat))) (σ : List Img)
      (cur : Nat),
      (∀ p ∈ st, ∀ (σ' : List Img) (a : Nat),
        ∃ v, p.2 σ' a = (σ' ++ [v], σ'.length) ∧
          (p.1 = "original" → v = σ'.getD a default)) →
      inputAddr < σ.length →
      ∃ τ, (generateHAux allowed inputAddr st σ cur).1 = σ ++ τ ∧
        (∀ q ∈ (generateHAux allowed inputAddr st σ cur).2, σ.length ≤ q.2) ∧
        (∀ q ∈ (generateHAux allowed inputAddr st σ cur).2, q.1 = "original" →
          (generateHAux allowed inputAddr st σ cur).1.getD q.2 default =
            σ.getD inputAddr default) := by
  intro st
  induction st with
  | nil =>
      intro σ cur _ _
      exact ⟨[], by simp [generateHAux], by simp [generateHAux],
        by simp [generateHAux]⟩
  | cons p rest ih =>
      intro σ cur hst hin
      obtain ⟨label, fn⟩ := p
      obtain ⟨v, hfn, hov⟩ := hst (label, fn) (List.mem_cons_self _ _) σ
        (if label = "original" then inputAddr else cur)
      have hfn' : fn σ (if label = "original" then inputAddr else cur) =
          (σ ++ [v], σ.length) := hfn
      have hin1 : inputAddr < (σ ++ [v]).length := by
        simp only [List.length_append, List.length_cons, List.length_nil]
        omega
      obtain ⟨τ', h1, h2, h3⟩ := ih (σ ++ [v]) σ.length
        (fun q hq => hst q (List.mem_cons_of_mem _ hq)) hin1
      have hgen : generateHAux allowed inputAddr ((label, fn) :: rest) σ cur =
          ((generateHAux allowed inputAddr rest (σ ++ [v]) σ.length).1,
           (if (match allowed with
                | none => true
                | some s => decide (label ∈ s)) then [(label, σ.length)] else []) ++
             (generateHAux allowed inputAddr rest (σ ++ [v]) σ.length).2) := by
        simp only [generateHAux]
        rw [hfn']
      have hgen1 : (generateHAux allowed inputAddr ((label, fn) :: rest) σ cur).1 =
          (generateHAux allowed inputAddr rest (σ ++ [v]) σ.length).1 := by
        rw [hgen]
      have hmemtail : ∀ q : String × Nat,
          q ∈ (generateHAux allowed inputAddr ((label, fn) :: rest) σ cur).2 →
          q = (label, σ.length) ∨
            q ∈ (generateHAux allowed inputAddr rest (σ ++ [v]) σ.length).2 := by
        intro q hq
        rw [hgen] at hq
        rcases List.mem_append.mp hq with hq | hq
        · left
          generalize (match allowed with
              | none => true
              | some s => decide (label ∈ s)) = c at hq
          cases c
          · simp at hq
          · simpa using hq
        · right
          exact hq
      refine ⟨v :: τ', ?_, ?_, ?_⟩
      · rw [hgen1, h1, List.append_assoc]
        rfl
      · intro q hq
        rcases hmemtail q hq with rfl | hq
        · exact le_refl _
        · have := h2 q hq
          simp only [List.length_append, List.length_cons, List.length_nil] at this
          omega
      · intro q hq hq1
        rw [hgen1]
        rcases hmemtail q hq with rfl | hq
        · have hlab : label = "original" := hq1
          have hv : v = σ.getD inputAddr default := by
            rw [hov hlab, if_pos hlab]
          have hcell : ((σ ++ [v]) ++ τ').getD σ.length default = v := by
            rw [List.getD_eq_getElem?_getD,
              List.getElem?_append_left (by
                simp only [List.length_append, List.length_cons, List.length_nil]
                omega),
              List.getElem?_append_right (le_refl _)]
            simp
          rw [h1, hcell, hv]
        · exact (h3 q hq hq1).trans (List.getD_append _ _ _ _ hin)

/-- C9. `generate` never mutates its input image: in the heap model every
pipeline stage allocates a fresh cell (`_identity` is `image.copy()`, the
PIL transforms return new images), so after any call — with any
`allowed_labels` — every pre-existing heap cell, in particular the caller's
input image at address `a`, is unchanged; all emitted variants live at
fresh addresses (distinct from `a`); and an emitted `original` variant is a
fresh copy: a different address holding the input image's value. -/
theorem claim_C9_no_mutation {Img : Type} [Inhabited Img] (P : PipelineOps Img)
    (allowed : Option (List String)) (heap : List Img) (a : Nat)
    (ha : a < heap.length) :
    (∀ i, i < heap.length →
      (generateH P heap a allowed).1.getD i default = heap.getD i default) ∧
    (∀ q ∈ (generateH P heap a allowed).2, heap.length ≤ q.2 ∧ q.2 ≠ a) ∧
    (∀ q ∈ (generateH P heap a allowed).2, q.1 = "original" →
      (generateH P heap a allowed).1.getD q.2 default = heap.getD a default) := by
  obtain ⟨τ, h1, h2, h3⟩ := generateHAux_frame allowed a (pipelineStepsH P) heap a
    (pipelineStepsH_alloc P) ha
  refine ⟨?_, ?_, ?_⟩
  · intro i hi
    show (generateHAux allowed a (pipelineStepsH P) heap a).1.getD i default = _
    rw [h1]
    exact List.getD_append _ _ _ _ hi
  · intro q hq
    have := h2 q hq
    exact ⟨this, by omega⟩
  · exact h3

/-- Witness for C9 on the concrete heap `[7, 9]` with the input image at
address `0`: the input cell still holds `7` after generation, and every
emitted `original` variant holds a copy of it. -/
theorem claim_C9_no_mutation_witness :
    (0 : Nat) < ([7, 9] : List Nat).length ∧
    (generateH natOps [7, 9] 0 none).1.getD 0 default = 7 ∧
    (∀ q ∈ (generateH natOps [7, 9] 0 none).2, q.1 = "original" →
      (generateH natOps [7, 9] 0 none).1.getD q.2 default = 7) := by
  have h := claim_C9_no_mutation natOps none [7, 9] 0 (by decide)
  refine ⟨by decide, ?_, ?_⟩
  · exact (h.1 0 (by decide)).trans (by decide)
  · intro q hq hq1
    exact (h.2.2 q hq hq1).trans (by decide)
